import Mathlib

/-!
Verification development for the detection-evaluation program (`src/main.py`).

The program scores object-detection outputs: it groups ground truth and
predictions by `(image_name, label)`, computes a pairwise IoU matrix per
group (`compute_iou`, lines 16-31), greedily matches rows to columns
(lines 79-94), accumulates per-label counters (lines 64-97), and finally
derives precision / recall / F1 (lines 100-102).

Numeric modelling: the program computes with NumPy integer and floating
point values; we model every numeric value by an exact rational `ℚ`, and
the `float('-inf')` sentinel used to invalidate matrix rows and columns
by `⊥` in `WithBot ℚ`.  Conversion to 32-bit floats (`astype(np.float32)`,
line 31) is the identity in this model.  Python's `/`, which raises
`ZeroDivisionError` on a zero denominator, is modelled by an
`Except`-valued division.
-/

/-- A bounding box `[left, top, right, bottom]` in absolute integer pixel
coordinates: one row of the `(M, 4)` box arrays handled by `main.py`. -/
structure Box where
  left : ℤ
  top : ℤ
  right : ℤ
  bottom : ℤ
deriving DecidableEq

/-- Well-formedness invariant assumed by the spec: `right ≥ left` and
`bottom ≥ top`. -/
def WellFormed (b : Box) : Prop := b.left ≤ b.right ∧ b.top ≤ b.bottom

instance (b : Box) : Decidable (WellFormed b) := by
  unfold WellFormed; infer_instance

/-- Area of a box, `(right - left) * (bottom - top)` (lines 28-29). -/
def area (b : Box) : ℚ := ((b.right - b.left) * (b.bottom - b.top) : ℤ)

/-- The epsilon `1e-32` flooring the union area (line 30). -/
def unionEps : ℚ := 1 / 10 ^ 32

/-- Intersection area of two boxes, with width and height clamped to `≥ 0`
before multiplying (lines 24-27: `lu`, `rd`, `intersection`,
`intersection_area`). -/
def interArea (a b : Box) : ℚ :=
  max 0 (((min a.right b.right - max a.left b.left : ℤ) : ℚ)) *
    max 0 (((min a.bottom b.bottom - max a.top b.top : ℤ) : ℚ))

/-- `np.clip (·) 0.0 1.0` (line 31). -/
def clip01 (x : ℚ) : ℚ := min (max x 0) 1

/-- The IoU of a single pair of boxes: intersection area divided by the
union area `max (area a + area b - interArea a b) 1e-32`, clipped to
`[0, 1]` (lines 30-31 applied entrywise). -/
def iouVal (a b : Box) : ℚ :=
  clip01 (interArea a b / max (area a + area b - interArea a b) unionEps)

/-- `compute_iou` (lines 16-31): the `(M, N)` matrix whose `(i, j)` entry
is the IoU of box `i` of `boxes1` and box `j` of `boxes2`.  NumPy
broadcasting applies the scalar pipeline to every pair. -/
def compute_iou (boxes1 boxes2 : List Box) : List (List ℚ) :=
  boxes1.map fun a => boxes2.map fun b => iouVal a b

/-- Per-label counters, `acc_metrics[label]` (line 59); missing keys of the
`defaultdict(int)` read as `0`. -/
structure Counters where
  total_true : Nat
  total_pred : Nat
  true_positive : Nat
  false_negative : Nat
  false_positive : Nat
deriving DecidableEq

/-- Python's `/`: raises `ZeroDivisionError` when the denominator is zero,
otherwise returns the exact quotient. -/
def pyDiv (a b : ℚ) : Except String ℚ :=
  if b = 0 then Except.error "ZeroDivisionError" else Except.ok (a / b)

/-- Lines 100-102: the unguarded precision / recall / F1 derivation for one
label's accumulated counters. -/
def labelMetrics (c : Counters) : Except String (ℚ × ℚ × ℚ) := do
  let precision ← pyDiv (c.true_positive : ℚ) ((c.true_positive : ℚ) + (c.false_positive : ℚ))
  let recall' ← pyDiv (c.true_positive : ℚ) ((c.true_positive : ℚ) + (c.false_negative : ℚ))
  let f1 ← pyDiv (2 * (precision * recall')) (precision + recall')
  return (precision, recall', f1)

/-- Entries of the mutable overlap matrix: float values together with the
`float('-inf')` sentinel, modelled as `WithBot ℚ`. -/
abbrev Val : Type := WithBot ℚ

/-- Entry `(i, j)` of a matrix represented as a list of rows; out-of-range
reads default to `⊥`. -/
def cell (mat : List (List Val)) (i j : Nat) : Val := (mat.getD i []).getD j ⊥

/-- The maximum value of a flattened array (the value `np.argmax` locates);
`⊥` on the empty list. -/
def listMax (l : List Val) : Val := l.foldl max ⊥

/-- Index of the first occurrence of `x` in `l` (length of `l` if absent). -/
def firstIdxOf (x : Val) : List Val → Nat
  | [] => 0
  | v :: rest => if v = x then 0 else firstIdxOf x rest + 1

/-- `np.argmax` on a flattened matrix (line 82): the flat index of the
first occurrence, in row-major order, of the maximum value. -/
def argmaxList (l : List Val) : Nat := firstIdxOf (listMax l) l

/-- A row of `-inf`: the effect of `pairwise_iou[argmax_row, :] = -inf`
on the selected row (line 88). -/
def botRow (row : List Val) : List Val := row.map fun _ => ⊥

/-- `pairwise_iou[r, :] = float('-inf')` (line 88). -/
def setRow : List (List Val) → Nat → List (List Val)
  | [], _ => []
  | row :: rest, 0 => botRow row :: rest
  | row :: rest, r + 1 => row :: setRow rest r

/-- Entry `c` of one row set to `-inf`. -/
def setColRow : List Val → Nat → List Val
  | [], _ => []
  | _ :: rest, 0 => ⊥ :: rest
  | v :: rest, c + 1 => v :: setColRow rest c

/-- `pairwise_iou[:, c] = float('-inf')` (line 89). -/
def setCol (mat : List (List Val)) (c : Nat) : List (List Val) :=
  mat.map fun row => setColRow row c

/-- The matcher's mutable state: `used_rows`, `used_cols` (line 79) and the
running `true_positive` increments for the group (line 94).  The Python
sets are modelled as duplicate-free lists. -/
structure MatchState where
  usedRows : List Nat
  usedCols : List Nat
  tp : Nat
deriving DecidableEq

/-- Python `set.add`: inserting an element already present is a no-op. -/
def setAdd (s : List Nat) (x : Nat) : List Nat := if x ∈ s then s else x :: s

/-- The column count of the matrix, the second component of
`pairwise_iou.shape` used by `np.unravel_index` (line 82). -/
def ncols (mat : List (List Val)) : Nat := (mat.headD []).length

/-- `argmax_row` of line 82: `np.unravel_index` maps the flat index of the
maximum to its row, `idx / N` for shape `(M, N)`. -/
def selRow (mat : List (List Val)) : Nat := argmaxList mat.flatten / ncols mat

/-- `argmax_col` of line 82: the column of the flat maximum index,
`idx % N` for shape `(M, N)`. -/
def selCol (mat : List (List Val)) : Nat := argmaxList mat.flatten % ncols mat

/-- The `while True` matching loop, lines 81-94.  Each pass finds the
row-major-first maximum entry (`np.argmax` + `np.unravel_index`), reads
`max_iou = pairwise_iou[argmax_row, argmax_col]` (line 83), stops when it
is `< t`, otherwise invalidates the matched row and column with `-inf`,
records the match and increments the true-positive count.  The Python
loop carries no fuel; `greedyLoop` returns `none` when the given fuel is
exhausted before the stopping test succeeds, and the development proves
that fuel `min M N + 1` always suffices on IoU matrices. -/
def greedyLoop : Nat → List (List Val) → ℚ → MatchState → Option MatchState
  | 0, _, _, _ => none
  | fuel + 1, mat, t, st =>
    if cell mat (selRow mat) (selCol mat) < (t : Val) then some st
    else greedyLoop fuel (setCol (setRow mat (selRow mat)) (selCol mat)) t
      ⟨setAdd st.usedRows (selRow mat), setAdd st.usedCols (selCol mat), st.tp + 1⟩

/-- Rectangularity: `M` rows, each of length `N`. -/
def Rect (mat : List (List Val)) (M N : Nat) : Prop :=
  mat.length = M ∧ ∀ row ∈ mat, row.length = N

instance (mat : List (List Val)) (M N : Nat) : Decidable (Rect mat M N) := by
  unfold Rect; infer_instance

/-- Invariant of the matching loop, relating the mutated matrix `mat` to
the initial matrix `mat0` and the match state: the used-row and used-column
sets are duplicate-free (no row or column is ever matched twice), bounded
by the matrix shape, both of size `tp`, and an entry of `mat` is its
original value unless its row or column has been consumed, in which case
it is `-inf`. -/
structure LoopInv (M N : Nat) (mat0 mat : List (List Val)) (st : MatchState) : Prop where
  rect : Rect mat M N
  nodupR : st.usedRows.Nodup
  nodupC : st.usedCols.Nodup
  boundR : ∀ r ∈ st.usedRows, r < M
  boundC : ∀ c ∈ st.usedCols, c < N
  lenR : st.usedRows.length = st.tp
  lenC : st.usedCols.length = st.tp
  cells : ∀ i < M, ∀ j < N,
    cell mat i j = if i ∈ st.usedRows ∨ j ∈ st.usedCols then ⊥ else cell mat0 i j

/-- One detection record as it reaches the core: image name, box and label.
The confidence score column is parsed (and set to `1.0` for ground truth,
line 39) but never read by the matching or accumulation code, so it is
omitted. -/
structure Det where
  image : String
  box : Box
  label : String
deriving DecidableEq

/-- The `(image_name, label)` grouping key. -/
def detKey (d : Det) : String × String := (d.image, d.label)

/-- The group keys produced by `ground_truth.groupby(['image_name',
'label'])` (line 61): one key per distinct `(image_name, label)` pair
occurring in the ground truth.  pandas emits groups in sorted key order;
since each group's contribution to the per-label counters depends only on
the group's own rows and counter addition is commutative, the final
accumulator is independent of group order, and first-occurrence order is
used here. -/
def groupKeys (l : List Det) : List (String × String) := (l.map detKey).dedup

/-- The rows of `l` belonging to group `k` (the `groupby` group for the
ground truth, the `query('image_name == @image_name and label == @label')`
of line 62 for the detections); original row order is preserved by both. -/
def groupOf (l : List Det) (k : String × String) : List Det :=
  l.filter fun d => decide (detKey d = k)

/-- All-zero counters: the value a fresh `defaultdict(int)` label entry
reads as. -/
def zeroCounters : Counters := ⟨0, 0, 0, 0, 0⟩

/-- Fieldwise sum of counters.  The source increments the individual
fields of `acc_metrics[label]` at several places (lines 64-65, 68, 94,
96-97); the net effect per group is adding that group's contribution. -/
def addCounters (a b : Counters) : Counters :=
  ⟨a.total_true + b.total_true, a.total_pred + b.total_pred,
    a.true_positive + b.true_positive, a.false_negative + b.false_negative,
    a.false_positive + b.false_positive⟩

/-- The IoU matrix of a group, entries coerced into `Val` so rows and
columns can later be overwritten with `-inf`. -/
def iouMatrix (tb pb : List Box) : List (List Val) :=
  (compute_iou tb pb).map fun row => row.map fun (q : ℚ) => (q : Val)

/-- Fuel for the matching loop of one group; `greedy_loop_total` proves it
sufficient, so `processGroup` never takes the `getD` default. -/
def groupFuel (M N : Nat) : Nat := min M N + 1

/-- Lines 64-97: the counter increments contributed by one
`(image_name, label)` group with ground-truth boxes `tb` and predicted
boxes `pb`.  When the group has ground truth but no predictions the matrix
is skipped and every ground-truth box is a false negative (lines 67-69);
otherwise the matrix is built, greedily matched, and unmatched rows /
columns are counted (lines 96-97).  In `main.py` a group always has at
least one ground-truth row (groups come from `groupby` on the ground
truth), so the `else` branch always runs with `M ≥ 1`; for `M = 0, N > 0`
the NumPy code would raise on `np.argmax` of an empty array, a path this
total model does not reproduce because it is unreachable from the
driver. -/
def processGroup (tb pb : List Box) (t : ℚ) : Counters :=
  let M := tb.length
  let N := pb.length
  if 0 < M ∧ N = 0 then
    { total_true := M, total_pred := N, true_positive := 0,
      false_negative := M, false_positive := 0 }
  else
    let st := (greedyLoop (groupFuel M N) (iouMatrix tb pb) t ⟨[], [], 0⟩).getD ⟨[], [], 0⟩
    { total_true := M, total_pred := N, true_positive := st.tp,
      false_negative := ((List.range M).filter fun i => decide (i ∉ st.usedRows)).length,
      false_positive := ((List.range N).filter fun j => decide (j ∉ st.usedCols)).length }

/-- `acc_metrics[label] += c`, leaving other labels unchanged. -/
def updateMetrics (acc : String → Counters) (label : String) (c : Counters) :
    String → Counters :=
  fun l => if l = label then addCounters (acc l) c else acc l

/-- The driver loop of `main` (lines 59-97): fold the per-group
contributions over the `(image_name, label)` groups **of the ground
truth**, starting from the empty `defaultdict(int)` accumulator.
Predictions are only consulted through the per-key `query` of line 62. -/
def evalDetections (gt preds : List Det) (t : ℚ) : String → Counters :=
  (groupKeys gt).foldl
    (fun acc k =>
      updateMetrics acc k.2
        (processGroup ((groupOf gt k).map Det.box) ((groupOf preds k).map Det.box) t))
    fun _ => zeroCounters

theorem clip01_nonneg (x : ℚ) : 0 ≤ clip01 x :=
  le_min (le_max_right x 0) one_pos.le

theorem clip01_le_one (x : ℚ) : clip01 x ≤ 1 := min_le_right _ _

theorem getD_map_lt {α β : Type} (f : α → β) (l : List α) (i : Nat) (d : β) (d' : α)
    (h : i < l.length) : (l.map f).getD i d = f (l.getD i d') := by
  induction l generalizing i with
  | nil => simp at h
  | cons x xs ih =>
    cases i with
    | zero => rfl
    | succ n =>
      simp only [List.map_cons, List.getD_cons_succ]
      exact ih n (by simpa using h)

theorem interArea_nonneg (a b : Box) : 0 ≤ interArea a b :=
  mul_nonneg (le_max_left _ _) (le_max_left _ _)

theorem area_cast (a : Box) :
    area a = ((a.right - a.left : ℤ) : ℚ) * ((a.bottom - a.top : ℤ) : ℚ) := by
  unfold area; push_cast; ring

theorem interArea_le_area_left (a b : Box) (ha : WellFormed a) :
    interArea a b ≤ area a := by
  obtain ⟨hx, hy⟩ := ha
  have hw : max (0 : ℚ) (((min a.right b.right - max a.left b.left : ℤ) : ℚ))
      ≤ ((a.right - a.left : ℤ) : ℚ) := by
    apply max_le
    · exact_mod_cast sub_nonneg.mpr hx
    · exact_mod_cast sub_le_sub (min_le_left _ _) (le_max_left _ _)
  have hh : max (0 : ℚ) (((min a.bottom b.bottom - max a.top b.top : ℤ) : ℚ))
      ≤ ((a.bottom - a.top : ℤ) : ℚ) := by
    apply max_le
    · exact_mod_cast sub_nonneg.mpr hy
    · exact_mod_cast sub_le_sub (min_le_left _ _) (le_max_left _ _)
  have hprod := mul_le_mul hw hh (le_max_left _ _)
    (by exact_mod_cast sub_nonneg.mpr hx)
  rw [area_cast]
  exact hprod

theorem unionEps_pos : (0 : ℚ) < unionEps := by norm_num [unionEps]

theorem interArea_comm (a b : Box) : interArea a b = interArea b a := by
  unfold interArea
  rw [min_comm a.right, max_comm a.left, min_comm a.bottom, max_comm a.top]

theorem iouVal_comm (a b : Box) : iouVal a b = iouVal b a := by
  unfold iouVal
  rw [interArea_comm, add_comm (area a)]

theorem iouVal_self (a : Box) (ha : WellFormed a) (hpos : 0 < area a) :
    iouVal a a = 1 := by
  have hI : interArea a a = area a := by
    unfold interArea
    rw [min_self, max_self, min_self, max_self,
      max_eq_right (by exact_mod_cast sub_nonneg.mpr ha.1 : (0:ℚ) ≤ _),
      max_eq_right (by exact_mod_cast sub_nonneg.mpr ha.2 : (0:ℚ) ≤ _),
      area_cast]
  have hone : (1 : ℚ) ≤ area a := by
    have hk : 0 < ((a.right - a.left) * (a.bottom - a.top) : ℤ) := by
      have := hpos; unfold area at this; exact_mod_cast this
    have hk1 : (1 : ℤ) ≤ (a.right - a.left) * (a.bottom - a.top) := by omega
    unfold area; exact_mod_cast hk1
  have heps : unionEps ≤ area a :=
    le_trans (by norm_num [unionEps]) hone
  unfold iouVal
  rw [hI]
  have harg : area a + area a - area a = area a := by ring
  rw [harg, max_eq_left heps, div_self (ne_of_gt hpos)]
  unfold clip01
  rw [max_eq_left one_pos.le, min_self]

/-- **C6**: for well-formed box collections, entry `(i, j)` of `compute_iou`
equals the intersection area of boxes `i` and `j` (width and height clamped
to `≥ 0`) divided by `max (area_i + area_j - intersection_area) 1e-32`,
clipped to `[0, 1]`; consequently every entry lies in `[0, 1]`.  (The
`astype(np.float32)` conversion is the identity in the exact-rational
model.) -/
theorem compute_iou_entry_eq (boxes1 boxes2 : List Box)
    (h1 : ∀ b ∈ boxes1, WellFormed b) (h2 : ∀ b ∈ boxes2, WellFormed b)
    (i j : Nat) (hi : i < boxes1.length) (hj : j < boxes2.length) :
    ((compute_iou boxes1 boxes2).getD i []).getD j 0 =
      clip01 (interArea (boxes1.getD i ⟨0, 0, 0, 0⟩) (boxes2.getD j ⟨0, 0, 0, 0⟩) /
        max (area (boxes1.getD i ⟨0, 0, 0, 0⟩) + area (boxes2.getD j ⟨0, 0, 0, 0⟩) -
          interArea (boxes1.getD i ⟨0, 0, 0, 0⟩) (boxes2.getD j ⟨0, 0, 0, 0⟩)) unionEps) ∧
    0 ≤ ((compute_iou boxes1 boxes2).getD i []).getD j 0 ∧
    ((compute_iou boxes1 boxes2).getD i []).getD j 0 ≤ 1 := by
  have hrow : ((compute_iou boxes1 boxes2).getD i []).getD j 0 =
      iouVal (boxes1.getD i ⟨0, 0, 0, 0⟩) (boxes2.getD j ⟨0, 0, 0, 0⟩) := by
    unfold compute_iou
    rw [getD_map_lt _ _ i [] ⟨0, 0, 0, 0⟩ hi, getD_map_lt _ _ j (0 : ℚ) ⟨0, 0, 0, 0⟩ hj]
  refine ⟨hrow, ?_, ?_⟩
  · rw [hrow]; exact clip01_nonneg _
  · rw [hrow]; exact clip01_le_one _

/-- Witness for `compute_iou_entry_eq` at spec Scenario A's boxes. -/
theorem compute_iou_entry_eq_witness :
    ((compute_iou [⟨10, 10, 50, 50⟩] [⟨12, 12, 48, 48⟩]).getD 0 []).getD 0 0 =
      clip01 (interArea (([⟨10, 10, 50, 50⟩] : List Box).getD 0 ⟨0, 0, 0, 0⟩)
          (([⟨12, 12, 48, 48⟩] : List Box).getD 0 ⟨0, 0, 0, 0⟩) /
        max (area (([⟨10, 10, 50, 50⟩] : List Box).getD 0 ⟨0, 0, 0, 0⟩) +
            area (([⟨12, 12, 48, 48⟩] : List Box).getD 0 ⟨0, 0, 0, 0⟩) -
          interArea (([⟨10, 10, 50, 50⟩] : List Box).getD 0 ⟨0, 0, 0, 0⟩)
            (([⟨12, 12, 48, 48⟩] : List Box).getD 0 ⟨0, 0, 0, 0⟩)) unionEps) ∧
    0 ≤ ((compute_iou [⟨10, 10, 50, 50⟩] [⟨12, 12, 48, 48⟩]).getD 0 []).getD 0 0 ∧
    ((compute_iou [⟨10, 10, 50, 50⟩] [⟨12, 12, 48, 48⟩]).getD 0 []).getD 0 0 ≤ 1 :=
  compute_iou_entry_eq [⟨10, 10, 50, 50⟩] [⟨12, 12, 48, 48⟩]
    (by decide) (by decide) 0 0 (by decide) (by decide)

/-- **C9**: for a pair of well-formed degenerate (zero-area) boxes the
union denominator is floored at the positive epsilon `1e-32` — the
division-by-zero branch is unreachable — and the IoU entry is `0`. -/
theorem iou_degenerate_no_div_zero (a b : Box) (ha : WellFormed a) (hb : WellFormed b)
    (ha0 : area a = 0) (hb0 : area b = 0) :
    max (area a + area b - interArea a b) unionEps = unionEps ∧
    0 < max (area a + area b - interArea a b) unionEps ∧
    iouVal a b = 0 := by
  have hI0 : interArea a b = 0 :=
    le_antisymm (ha0 ▸ interArea_le_area_left a b ha) (interArea_nonneg a b)
  have hmax : max (area a + area b - interArea a b) unionEps = unionEps := by
    rw [ha0, hb0, hI0]
    simpa using max_eq_right (le_of_lt unionEps_pos)
  refine ⟨hmax, by rw [hmax]; exact unionEps_pos, ?_⟩
  unfold iouVal
  rw [hmax, hI0]
  simp [clip01]

/-- Witness for `iou_degenerate_no_div_zero`: a zero-width and a
zero-height box. -/
theorem iou_degenerate_no_div_zero_witness :
    max (area ⟨0, 0, 0, 5⟩ + area ⟨0, 2, 10, 2⟩ - interArea ⟨0, 0, 0, 5⟩ ⟨0, 2, 10, 2⟩)
        unionEps = unionEps ∧
    0 < max (area ⟨0, 0, 0, 5⟩ + area ⟨0, 2, 10, 2⟩ - interArea ⟨0, 0, 0, 5⟩ ⟨0, 2, 10, 2⟩)
        unionEps ∧
    iouVal ⟨0, 0, 0, 5⟩ ⟨0, 2, 10, 2⟩ = 0 :=
  iou_degenerate_no_div_zero ⟨0, 0, 0, 5⟩ ⟨0, 2, 10, 2⟩
    (by decide) (by decide) (by decide) (by decide)

/-- **C10**: `compute_iou` is symmetric — entry `(i, j)` of
`compute_iou A B` equals entry `(j, i)` of `compute_iou B A` — and the IoU
of a non-degenerate well-formed box with itself is exactly `1`. -/
theorem compute_iou_symm_self :
    (∀ (b1 b2 : List Box) (i j : Nat), i < b1.length → j < b2.length →
      ((compute_iou b1 b2).getD i []).getD j 0 =
        ((compute_iou b2 b1).getD j []).getD i 0) ∧
    (∀ a : Box, WellFormed a → 0 < area a → iouVal a a = 1) := by
  constructor
  · intro b1 b2 i j hi hj
    unfold compute_iou
    rw [getD_map_lt _ _ i [] ⟨0, 0, 0, 0⟩ hi, getD_map_lt _ _ j (0 : ℚ) ⟨0, 0, 0, 0⟩ hj,
      getD_map_lt _ _ j [] ⟨0, 0, 0, 0⟩ hj, getD_map_lt _ _ i (0 : ℚ) ⟨0, 0, 0, 0⟩ hi,
      iouVal_comm]
  · exact iouVal_self

/-- Witness for `compute_iou_symm_self` at concrete boxes. -/
theorem compute_iou_symm_self_witness :
    ((compute_iou [⟨10, 10, 50, 50⟩] [⟨12, 12, 48, 48⟩]).getD 0 []).getD 0 0 =
      ((compute_iou [⟨12, 12, 48, 48⟩] [⟨10, 10, 50, 50⟩]).getD 0 []).getD 0 0 ∧
    iouVal ⟨10, 10, 50, 50⟩ ⟨10, 10, 50, 50⟩ = 1 :=
  ⟨compute_iou_symm_self.1 [⟨10, 10, 50, 50⟩] [⟨12, 12, 48, 48⟩] 0 0
      (by decide) (by decide),
    compute_iou_symm_self.2 ⟨10, 10, 50, 50⟩ (by decide) (by decide)⟩

/-- **C2**: the final precision / recall / F1 divisions are unguarded —
whenever the accumulated counters of a label make one of the three
denominators zero (`tp + fp` for precision, `tp + fn` for recall, or
`precision + recall` for F1, the latter exactly when `tp = 0` while the
first two are nonzero), the computation propagates a division-by-zero
failure instead of returning a value. -/
theorem labelMetrics_div_zero (c : Counters)
    (h : c.true_positive + c.false_positive = 0 ∨
      c.true_positive + c.false_negative = 0 ∨ c.true_positive = 0) :
    labelMetrics c = Except.error "ZeroDivisionError" := by
  have htp : c.true_positive = 0 := by omega
  by_cases hfp : c.false_positive = 0
  · simp [labelMetrics, pyDiv, htp, hfp, Bind.bind, Except.bind]
  · have hfpQ : (c.true_positive : ℚ) + (c.false_positive : ℚ) ≠ 0 := by
      rw [htp]
      push_cast
      simpa using Nat.cast_ne_zero.mpr hfp
    by_cases hfn : c.false_negative = 0
    · simp [labelMetrics, pyDiv, htp, hfn, hfpQ, hfp, Bind.bind, Except.bind]
    · have hfnQ : (c.true_positive : ℚ) + (c.false_negative : ℚ) ≠ 0 := by
        rw [htp]
        push_cast
        simpa using Nat.cast_ne_zero.mpr hfn
      simp [labelMetrics, pyDiv, htp, hfpQ, hfnQ, hfp, hfn, Bind.bind, Except.bind,
        Except.map]

/-- Witness for `labelMetrics_div_zero`: the counters of spec Scenario B
(0 true positives, 1 false negative, 1 false positive). -/
theorem labelMetrics_div_zero_witness :
    labelMetrics ⟨1, 1, 0, 1, 1⟩ = Except.error "ZeroDivisionError" :=
  labelMetrics_div_zero ⟨1, 1, 0, 1, 1⟩ (Or.inr (Or.inr rfl))

theorem getD_of_lt {α : Type} (l : List α) (i : Nat) (d : α) (h : i < l.length) :
    l.getD i d = l.get ⟨i, h⟩ := by
  induction l generalizing i with
  | nil => simp at h
  | cons x xs ih =>
    cases i with
    | zero => rfl
    | succ n => exact ih n (by simpa using h)

theorem getD_mem {α : Type} (l : List α) (i : Nat) (d : α) (h : i < l.length) :
    l.getD i d ∈ l := by
  rw [getD_of_lt l i d h]
  exact l.get_mem _ _

theorem firstIdxOf_lt_length (x : Val) (l : List Val) (h : x ∈ l) :
    firstIdxOf x l < l.length := by
  induction l with
  | nil => simp at h
  | cons v rest ih =>
    by_cases hv : v = x
    · simp [firstIdxOf, hv]
    · rcases List.mem_cons.mp h with h | h
      · exact absurd h.symm hv
      · simpa [firstIdxOf, hv] using ih h

theorem getD_firstIdxOf (x : Val) (l : List Val) (h : x ∈ l) :
    l.getD (firstIdxOf x l) ⊥ = x := by
  induction l with
  | nil => simp at h
  | cons v rest ih =>
    by_cases hv : v = x
    · simp [firstIdxOf, hv]
    · rcases List.mem_cons.mp h with h | h
      · exact absurd h.symm hv
      · simpa [firstIdxOf, hv] using ih h

theorem getD_ne_of_lt_firstIdxOf (x : Val) (l : List Val) (m : Nat)
    (h : m < firstIdxOf x l) : l.getD m ⊥ ≠ x := by
  induction l generalizing m with
  | nil => simp [firstIdxOf] at h
  | cons v rest ih =>
    by_cases hv : v = x
    · simp [firstIdxOf, hv] at h
    · cases m with
      | zero => simpa using hv
      | succ n =>
        simp only [firstIdxOf, hv, if_false] at h
        simpa using ih n (by omega)

theorem le_foldl_max (l : List Val) (a : Val) : a ≤ l.foldl max a := by
  induction l generalizing a with
  | nil => exact le_refl a
  | cons x xs ih => exact le_trans (le_max_left a x) (ih (max a x))

theorem mem_le_foldl_max (l : List Val) (a x : Val) (h : x ∈ l) :
    x ≤ l.foldl max a := by
  induction l generalizing a with
  | nil => simp at h
  | cons v rest ih =>
    simp only [List.foldl_cons]
    rcases List.mem_cons.mp h with h1 | h1
    · rw [h1]
      exact le_trans (le_max_right a v) (le_foldl_max rest (max a v))
    · exact ih (max a v) h1

theorem foldl_max_mem_cons (l : List Val) (a : Val) : l.foldl max a ∈ a :: l := by
  induction l generalizing a with
  | nil => simp
  | cons v rest ih =>
    simp only [List.foldl_cons]
    rcases List.mem_cons.mp (ih (max a v)) with h | h
    · rcases max_choice a v with hm | hm
      · rw [h, hm]; simp
      · rw [h, hm]; simp
    · exact List.mem_cons.mpr (Or.inr (List.mem_cons.mpr (Or.inr h)))

theorem le_listMax (l : List Val) (x : Val) (h : x ∈ l) : x ≤ listMax l :=
  mem_le_foldl_max l ⊥ x h

theorem listMax_mem (l : List Val) (h : l ≠ []) : listMax l ∈ l := by
  rcases List.mem_cons.mp (foldl_max_mem_cons l ⊥) with hbot | hmem
  · cases l with
    | nil => exact absurd rfl h
    | cons v rest =>
      have hv : v ≤ listMax (v :: rest) := le_listMax _ v (by simp)
      have hb : listMax (v :: rest) = ⊥ := hbot
      rw [hb] at hv
      have hveq : v = ⊥ := le_bot_iff.mp hv
      rw [hb, ← hveq]
      simp
  · exact hmem

theorem rect_row_length {mat : List (List Val)} {M N : Nat} (h : Rect mat M N)
    {i : Nat} (hi : i < M) : (mat.getD i []).length = N :=
  h.2 _ (getD_mem mat i [] (h.1.symm ▸ hi))

theorem flatten_length {mat : List (List Val)} {N : Nat}
    (h : ∀ row ∈ mat, row.length = N) : mat.flatten.length = mat.length * N := by
  induction mat with
  | nil => simp
  | cons row rest ih =>
    have hrow : row.length = N := h row (by simp)
    have hrest : ∀ r ∈ rest, r.length = N := fun r hr => h r (by simp [hr])
    simp [List.flatten_cons, hrow, ih hrest, Nat.succ_mul, Nat.add_comm]

theorem flatten_getD {mat : List (List Val)} {N : Nat}
    (h : ∀ row ∈ mat, row.length = N) (r c : Nat) (hr : r < mat.length) (hc : c < N) :
    mat.flatten.getD (N * r + c) ⊥ = cell mat r c := by
  induction mat generalizing r with
  | nil => simp at hr
  | cons row rest ih =>
    have hrow : row.length = N := h row (by simp)
    have hrest : ∀ l ∈ rest, l.length = N := fun l hl => h l (by simp [hl])
    cases r with
    | zero =>
      have hlt : c < row.length := hrow ▸ hc
      simp only [Nat.mul_zero, Nat.zero_add, List.flatten_cons, cell]
      rw [List.getD_append _ _ _ _ hlt]
      rfl
    | succ n =>
      have harith : N * (n + 1) + c = row.length + (N * n + c) := by
        rw [hrow]; ring
      simp only [List.flatten_cons, cell, harith]
      rw [List.getD_append_right _ _ _ _ (Nat.le_add_right _ _)]
      simp only [Nat.add_sub_cancel_left]
      exact ih hrest n (by simpa using hr)

theorem cell_mem_flatten {mat : List (List Val)} {M N : Nat} (h : Rect mat M N)
    (i j : Nat) (hi : i < M) (hj : j < N) : cell mat i j ∈ mat.flatten := by
  apply List.mem_flatten.mpr
  refine ⟨mat.getD i [], getD_mem mat i [] (h.1.symm ▸ hi), ?_⟩
  exact getD_mem _ j ⊥ ((rect_row_length h hi).symm ▸ hj)

theorem getD_botRow (row : List Val) (j : Nat) : (botRow row).getD j ⊥ = ⊥ := by
  induction row generalizing j with
  | nil => rfl
  | cons v rest ih =>
    cases j with
    | zero => rfl
    | succ n => exact ih n

theorem length_botRow (row : List Val) : (botRow row).length = row.length :=
  List.length_map _ _

theorem length_setColRow (row : List Val) (c : Nat) :
    (setColRow row c).length = row.length := by
  induction row generalizing c with
  | nil => rfl
  | cons v rest ih =>
    cases c with
    | zero => rfl
    | succ n => simpa [setColRow] using ih n

theorem length_setRow (mat : List (List Val)) (r : Nat) :
    (setRow mat r).length = mat.length := by
  induction mat generalizing r with
  | nil => rfl
  | cons row rest ih =>
    cases r with
    | zero => rfl
    | succ n => simpa [setRow] using ih n

theorem getD_setColRow (row : List Val) (c j : Nat) :
    (setColRow row c).getD j ⊥ = if j = c then ⊥ else row.getD j ⊥ := by
  induction row generalizing c j with
  | nil =>
    cases j <;> simp [setColRow]
  | cons v rest ih =>
    cases c with
    | zero =>
      cases j with
      | zero => rfl
      | succ n => simp [setColRow]
    | succ m =>
      cases j with
      | zero => simp [setColRow]
      | succ n => simpa [setColRow] using ih m n

theorem cell_setRow (mat : List (List Val)) (r i j : Nat) :
    cell (setRow mat r) i j = if i = r then ⊥ else cell mat i j := by
  induction mat generalizing r i with
  | nil =>
    cases i <;> simp [setRow, cell]
  | cons row rest ih =>
    cases r with
    | zero =>
      cases i with
      | zero =>
        show (botRow row).getD j ⊥ = if (0 : Nat) = 0 then ⊥ else cell (row :: rest) 0 j
        rw [if_pos rfl, getD_botRow]
      | succ n => simp [setRow, cell]
    | succ m =>
      cases i with
      | zero => simp [setRow, cell]
      | succ n =>
        have := ih m n
        simp only [cell] at this
        simpa [setRow, cell] using this

theorem cell_setCol (mat : List (List Val)) (c i j : Nat) :
    cell (setCol mat c) i j = if j = c then ⊥ else cell mat i j := by
  induction mat generalizing i with
  | nil =>
    cases i <;> simp [setCol, cell, List.getD]
  | cons row rest ih =>
    cases i with
    | zero => simpa [setCol, cell] using getD_setColRow row c j
    | succ n =>
      have := ih n
      simp only [setCol, cell] at this
      simpa [setCol, cell] using this

theorem mem_setRow {mat : List (List Val)} {r : Nat} {row : List Val}
    (h : row ∈ setRow mat r) : row ∈ mat ∨ ∃ orig ∈ mat, row = botRow orig := by
  induction mat generalizing r with
  | nil => simp [setRow] at h
  | cons hd rest ih =>
    cases r with
    | zero =>
      rcases List.mem_cons.mp h with h1 | h1
      · exact Or.inr ⟨hd, by simp, h1⟩
      · exact Or.inl (by simp [h1])
    | succ m =>
      rcases List.mem_cons.mp h with h1 | h1
      · exact Or.inl (by simp [h1])
      · rcases ih h1 with h2 | ⟨orig, ho, he⟩
        · exact Or.inl (by simp [h2])
        · exact Or.inr ⟨orig, by simp [ho], he⟩

theorem rect_setRow {mat : List (List Val)} {M N : Nat} (h : Rect mat M N) (r : Nat) :
    Rect (setRow mat r) M N := by
  refine ⟨(length_setRow mat r).trans h.1, ?_⟩
  intro row hrow
  rcases mem_setRow hrow with h1 | ⟨orig, ho, he⟩
  · exact h.2 row h1
  · rw [he, length_botRow]
    exact h.2 orig ho

theorem rect_setCol {mat : List (List Val)} {M N : Nat} (h : Rect mat M N) (c : Nat) :
    Rect (setCol mat c) M N := by
  refine ⟨(List.length_map _ _).trans h.1, ?_⟩
  intro row hrow
  rcases List.mem_map.mp hrow with ⟨orig, horig, heq⟩
  rw [← heq, length_setColRow]
  exact h.2 orig horig

theorem nodup_lt_length_le (l : List Nat) (n : Nat) (hnd : l.Nodup)
    (hb : ∀ x ∈ l, x < n) : l.length ≤ n := by
  have hsub : l ⊆ List.range n := fun x hx => List.mem_range.mpr (hb x hx)
  have := (hnd.subperm hsub).length_le
  simpa using this

theorem loopInv_tp_le {M N : Nat} {mat0 mat : List (List Val)} {st : MatchState}
    (h : LoopInv M N mat0 mat st) : st.tp ≤ min M N := by
  have h1 : st.tp ≤ M := h.lenR ▸ nodup_lt_length_le _ _ h.nodupR h.boundR
  have h2 : st.tp ≤ N := h.lenC ▸ nodup_lt_length_le _ _ h.nodupC h.boundC
  omega

theorem ncols_rect {mat : List (List Val)} {M N : Nat} (h : Rect mat M N)
    (hM : 0 < M) : ncols mat = N := by
  cases mat with
  | nil => rw [← h.1] at hM; simp at hM
  | cons row rest => exact h.2 row (by simp)

theorem flatten_ne_nil {mat : List (List Val)} {M N : Nat} (h : Rect mat M N)
    (hM : 0 < M) (hN : 0 < N) : mat.flatten ≠ [] := by
  have hlen : mat.flatten.length = M * N := by
    rw [flatten_length h.2, h.1]
  have : 0 < mat.flatten.length := hlen ▸ Nat.mul_pos hM hN
  exact List.ne_nil_of_length_pos this

theorem cell_le_listMax {mat : List (List Val)} {M N : Nat} (h : Rect mat M N)
    (i j : Nat) (hi : i < M) (hj : j < N) : cell mat i j ≤ listMax mat.flatten :=
  le_listMax _ _ (cell_mem_flatten h i j hi hj)

theorem argmax_select {mat : List (List Val)} {M N : Nat} (h : Rect mat M N)
    (hM : 0 < M) (hN : 0 < N) :
    selRow mat < M ∧ selCol mat < N ∧
    cell mat (selRow mat) (selCol mat) = listMax mat.flatten ∧
    N * selRow mat + selCol mat = argmaxList mat.flatten := by
  have hflat : mat.flatten ≠ [] := flatten_ne_nil h hM hN
  have hmem : listMax mat.flatten ∈ mat.flatten := listMax_mem _ hflat
  have hidxlt : argmaxList mat.flatten < mat.flatten.length :=
    firstIdxOf_lt_length _ _ hmem
  have hlen : mat.flatten.length = M * N := by
    rw [flatten_length h.2, h.1]
  have hN' : ncols mat = N := ncols_rect h hM
  have hrlt : selRow mat < M := by
    rw [selRow, hN']
    exact (Nat.div_lt_iff_lt_mul hN).mpr (hlen ▸ hidxlt)
  have hclt : selCol mat < N := by
    rw [selCol, hN']
    exact Nat.mod_lt _ hN
  have hsum : N * selRow mat + selCol mat = argmaxList mat.flatten := by
    rw [selRow, selCol, hN']
    exact Nat.div_add_mod _ N
  refine ⟨hrlt, hclt, ?_, hsum⟩
  rw [← flatten_getD h.2 (selRow mat) (selCol mat) (h.1.symm ▸ hrlt) hclt, hsum]
  exact getD_firstIdxOf _ _ hmem

theorem argmax_first_occurrence {mat : List (List Val)} {M N : Nat} (h : Rect mat M N)
    (hM : 0 < M) (hN : 0 < N) (i j : Nat) (hi : i < M) (hj : j < N)
    (heq : cell mat i j = listMax mat.flatten) :
    argmaxList mat.flatten ≤ N * i + j := by
  by_contra hcon
  have hlt : N * i + j < argmaxList mat.flatten := by omega
  have hne := getD_ne_of_lt_firstIdxOf (listMax mat.flatten) mat.flatten _ hlt
  rw [flatten_getD h.2 i j (h.1.symm ▸ hi) hj] at hne
  exact hne heq

theorem greedyLoop_run {M N : Nat} (hM : 0 < M) (hN : 0 < N)
    (mat0 : List (List Val)) (h0 : ∀ i < M, ∀ j < N, (0 : Val) ≤ cell mat0 i j) (t : ℚ) :
    ∀ fuel mat st, LoopInv M N mat0 mat st → min M N + 1 ≤ fuel + st.tp →
      ∃ st2, greedyLoop fuel mat t st = some st2 ∧
        (∃ mat2, LoopInv M N mat0 mat2 st2) ∧
        ∀ i < M, ∀ j < N, i ∉ st2.usedRows → j ∉ st2.usedCols →
          cell mat0 i j < (t : Val) := by
  intro fuel
  induction fuel with
  | zero =>
    intro mat st hinv hfuel
    have := loopInv_tp_le hinv
    omega
  | succ fuel ih =>
    intro mat st hinv hfuel
    obtain ⟨hr, hc, hmaxeq, hidx⟩ := argmax_select hinv.rect hM hN
    by_cases hstop : cell mat (selRow mat) (selCol mat) < (t : Val)
    · refine ⟨st, ?_, ⟨mat, hinv⟩, ?_⟩
      · show (if cell mat (selRow mat) (selCol mat) < (t : Val) then some st
            else greedyLoop fuel (setCol (setRow mat (selRow mat)) (selCol mat)) t
              ⟨setAdd st.usedRows (selRow mat), setAdd st.usedCols (selCol mat),
                st.tp + 1⟩) = some st
        rw [if_pos hstop]
      · intro i hi j hj hiR hjC
        have h1 : cell mat i j = cell mat0 i j := by
          rw [hinv.cells i hi j hj, if_neg (by tauto)]
        have h2 : cell mat i j ≤ listMax mat.flatten := cell_le_listMax hinv.rect i j hi hj
        rw [h1] at h2
        exact lt_of_le_of_lt h2 (hmaxeq ▸ hstop)
    · have hge : (t : Val) ≤ cell mat (selRow mat) (selCol mat) := not_lt.mp hstop
      have hnotbot : cell mat (selRow mat) (selCol mat) ≠ ⊥ := fun hb =>
        not_le.mpr (WithBot.bot_lt_coe t) (hb ▸ hge)
      have hfresh : selRow mat ∉ st.usedRows ∧ selCol mat ∉ st.usedCols := by
        by_contra hcon
        have hmem : selRow mat ∈ st.usedRows ∨ selCol mat ∈ st.usedCols := by tauto
        exact hnotbot (by rw [hinv.cells _ hr _ hc, if_pos hmem])
      obtain ⟨hrn, hcn⟩ := hfresh
      have hinv2 : LoopInv M N mat0 (setCol (setRow mat (selRow mat)) (selCol mat))
          ⟨selRow mat :: st.usedRows, selCol mat :: st.usedCols, st.tp + 1⟩ := by
        refine ⟨rect_setCol (rect_setRow hinv.rect _) _, ?_, ?_, ?_, ?_, ?_, ?_, ?_⟩
        · exact List.nodup_cons.mpr ⟨hrn, hinv.nodupR⟩
        · exact List.nodup_cons.mpr ⟨hcn, hinv.nodupC⟩
        · intro x hx
          rcases List.mem_cons.mp hx with h1 | h1
          · rw [h1]; exact hr
          · exact hinv.boundR x h1
        · intro x hx
          rcases List.mem_cons.mp hx with h1 | h1
          · rw [h1]; exact hc
          · exact hinv.boundC x h1
        · simpa using hinv.lenR
        · simpa using hinv.lenC
        · intro i hi j hj
          rw [cell_setCol, cell_setRow]
          by_cases hjc : j = selCol mat
          · simp [hjc]
          · by_cases hir : i = selRow mat
            · simp [hir, hjc]
            · rw [if_neg hjc, if_neg hir, hinv.cells i hi j hj]
              simp [List.mem_cons, hir, hjc]
      obtain ⟨st2, hrun, hinv2', hfinal⟩ :=
        ih (setCol (setRow mat (selRow mat)) (selCol mat))
          ⟨selRow mat :: st.usedRows, selCol mat :: st.usedCols, st.tp + 1⟩
          hinv2 (by simp only [MatchState.tp] at hfuel ⊢; omega)
      refine ⟨st2, ?_, hinv2', hfinal⟩
      show (if cell mat (selRow mat) (selCol mat) < (t : Val) then some st
          else greedyLoop fuel (setCol (setRow mat (selRow mat)) (selCol mat)) t
            ⟨setAdd st.usedRows (selRow mat), setAdd st.usedCols (selCol mat),
              st.tp + 1⟩) = some st2
      rw [if_neg hstop, setAdd, setAdd, if_neg hrn, if_neg hcn]
      exact hrun

theorem iouVal_nonneg (a b : Box) : 0 ≤ iouVal a b := clip01_nonneg _

theorem iouMatrix_rect (tb pb : List Box) :
    Rect (iouMatrix tb pb) tb.length pb.length := by
  constructor
  · simp [iouMatrix, compute_iou]
  · intro row hrow
    simp only [iouMatrix, compute_iou, List.map_map] at hrow
    rcases List.mem_map.mp hrow with ⟨a, ha, heq⟩
    simp [← heq]

theorem cell_iouMatrix (tb pb : List Box) (i j : Nat) (hi : i < tb.length)
    (hj : j < pb.length) :
    cell (iouMatrix tb pb) i j =
      ((iouVal (tb.getD i ⟨0, 0, 0, 0⟩) (pb.getD j ⟨0, 0, 0, 0⟩) : ℚ) : Val) := by
  unfold cell iouMatrix compute_iou
  rw [List.map_map]
  rw [getD_map_lt _ tb i [] ⟨0, 0, 0, 0⟩ hi]
  simp only [Function.comp_apply, List.map_map]
  rw [getD_map_lt _ pb j ⊥ ⟨0, 0, 0, 0⟩ hj]
  rfl

theorem iouMatrix_nonneg (tb pb : List Box) :
    ∀ i < tb.length, ∀ j < pb.length, (0 : Val) ≤ cell (iouMatrix tb pb) i j := by
  intro i hi j hj
  rw [cell_iouMatrix tb pb i j hi hj]
  exact_mod_cast iouVal_nonneg _ _

theorem loopInv_init {mat0 : List (List Val)} {M N : Nat} (hrect : Rect mat0 M N) :
    LoopInv M N mat0 mat0 ⟨[], [], 0⟩ := by
  refine ⟨hrect, List.nodup_nil, List.nodup_nil, ?_, ?_, rfl, rfl, ?_⟩
  · intro x hx; simp at hx
  · intro x hx; simp at hx
  · intro i hi j hj; simp

/-- **C3**: on any rectangular `M × N` overlap matrix with nonnegative
entries (every `compute_iou` output is such) and any threshold `t`, the
greedy matching loop terminates within `min M N` matching iterations —
fuel `min M N + 1` (the extra unit pays for the final failing threshold
test) always returns a result — and the number of matches recorded is at
most `min M N`, because every iteration invalidates one whole row and one
whole column. -/
theorem greedy_loop_total (M N : Nat) (hM : 0 < M) (hN : 0 < N)
    (mat0 : List (List Val)) (hrect : Rect mat0 M N)
    (h0 : ∀ i < M, ∀ j < N, (0 : Val) ≤ cell mat0 i j) (t : ℚ) :
    ∃ st, greedyLoop (min M N + 1) mat0 t ⟨[], [], 0⟩ = some st ∧ st.tp ≤ min M N := by
  obtain ⟨st2, hrun, ⟨mat2, hinv2⟩, _⟩ :=
    greedyLoop_run hM hN mat0 h0 t (min M N + 1) mat0 ⟨[], [], 0⟩
      (loopInv_init hrect) (by omega)
  exact ⟨st2, hrun, loopInv_tp_le hinv2⟩

/-- Witness for `greedy_loop_total` at a concrete `1 × 1` matrix. -/
theorem greedy_loop_total_witness :
    ∃ st, greedyLoop (min 1 1 + 1) [[((0 : ℚ) : Val)]] 1 ⟨[], [], 0⟩ = some st ∧
      st.tp ≤ min 1 1 :=
  greedy_loop_total 1 1 (by decide) (by decide) [[((0 : ℚ) : Val)]] (by decide)
    (by decide) 1

/-- **C4**: throughout the matching loop no row index and no column index
is matched more than once (the accumulated `used_rows` / `used_cols` lists
are duplicate-free), and when the loop stops the two sets have equal size,
equal to the number of true positives recorded. -/
theorem greedy_loop_disjoint (M N : Nat) (hM : 0 < M) (hN : 0 < N)
    (mat0 : List (List Val)) (hrect : Rect mat0 M N)
    (h0 : ∀ i < M, ∀ j < N, (0 : Val) ≤ cell mat0 i j) (t : ℚ) :
    ∃ st, greedyLoop (min M N + 1) mat0 t ⟨[], [], 0⟩ = some st ∧
      st.usedRows.Nodup ∧ st.usedCols.Nodup ∧
      st.usedRows.length = st.tp ∧ st.usedCols.length = st.tp := by
  obtain ⟨st2, hrun, ⟨mat2, hinv2⟩, _⟩ :=
    greedyLoop_run hM hN mat0 h0 t (min M N + 1) mat0 ⟨[], [], 0⟩
      (loopInv_init hrect) (by omega)
  exact ⟨st2, hrun, hinv2.nodupR, hinv2.nodupC, hinv2.lenR, hinv2.lenC⟩

/-- Witness for `greedy_loop_disjoint` at a concrete `1 × 1` matrix. -/
theorem greedy_loop_disjoint_witness :
    ∃ st, greedyLoop (min 1 1 + 1) [[((0 : ℚ) : Val)]] 1 ⟨[], [], 0⟩ = some st ∧
      st.usedRows.Nodup ∧ st.usedCols.Nodup ∧
      st.usedRows.length = st.tp ∧ st.usedCols.length = st.tp :=
  greedy_loop_disjoint 1 1 (by decide) (by decide) [[((0 : ℚ) : Val)]] (by decide)
    (by decide) 1

/-- **C8**: the selected entry `(argmax_row, argmax_col)` is a maximum of
the matrix, and among all entries attaining the maximum it is the one
occurring first in row-major scan order: its flat index `N * r + c` is
least.  The selection — hence the whole sequence of matches and the output
counters — is a function of the matrix and threshold, so it is
deterministic. -/
theorem greedy_tie_break (M N : Nat) (hM : 0 < M) (hN : 0 < N)
    (mat : List (List Val)) (hrect : Rect mat M N) :
    selRow mat < M ∧ selCol mat < N ∧
    (∀ i < M, ∀ j < N, cell mat i j ≤ cell mat (selRow mat) (selCol mat)) ∧
    ∀ i < M, ∀ j < N, cell mat i j = cell mat (selRow mat) (selCol mat) →
      N * selRow mat + selCol mat ≤ N * i + j := by
  obtain ⟨hr, hc, hmax, hidx⟩ := argmax_select hrect hM hN
  refine ⟨hr, hc, ?_, ?_⟩
  · intro i hi j hj
    rw [hmax]
    exact cell_le_listMax hrect i j hi hj
  · intro i hi j hj heq
    rw [hmax] at heq
    rw [hidx]
    exact argmax_first_occurrence hrect hM hN i j hi hj heq

/-- Witness for `greedy_tie_break` at a concrete `1 × 2` matrix with a
tie: both entries equal, the first column is selected. -/
theorem greedy_tie_break_witness :
    selRow [[((0 : ℚ) : Val), ((0 : ℚ) : Val)]] < 1 ∧
    selCol [[((0 : ℚ) : Val), ((0 : ℚ) : Val)]] < 2 ∧
    (∀ i < 1, ∀ j < 2, cell [[((0 : ℚ) : Val), ((0 : ℚ) : Val)]] i j ≤
      cell [[((0 : ℚ) : Val), ((0 : ℚ) : Val)]]
        (selRow [[((0 : ℚ) : Val), ((0 : ℚ) : Val)]])
        (selCol [[((0 : ℚ) : Val), ((0 : ℚ) : Val)]])) ∧
    ∀ i < 1, ∀ j < 2, cell [[((0 : ℚ) : Val), ((0 : ℚ) : Val)]] i j =
      cell [[((0 : ℚ) : Val), ((0 : ℚ) : Val)]]
        (selRow [[((0 : ℚ) : Val), ((0 : ℚ) : Val)]])
        (selCol [[((0 : ℚ) : Val), ((0 : ℚ) : Val)]]) →
      2 * selRow [[((0 : ℚ) : Val), ((0 : ℚ) : Val)]] +
        selCol [[((0 : ℚ) : Val), ((0 : ℚ) : Val)]] ≤ 2 * i + j :=
  greedy_tie_break 1 2 (by decide) (by decide) [[((0 : ℚ) : Val), ((0 : ℚ) : Val)]]
    (by decide)

theorem filter_length_partition {α : Type} (l : List α) (p : α → Bool) :
    (l.filter p).length + (l.filter fun a => ! p a).length = l.length := by
  induction l with
  | nil => rfl
  | cons x xs ih =>
    cases hx : p x with
    | true =>
      have h1 : (x :: xs).filter p = x :: xs.filter p := by
        simp [List.filter_cons, hx]
      have h2 : ((x :: xs).filter fun a => ! p a) = xs.filter fun a => ! p a := by
        simp [List.filter_cons, hx]
      rw [h1, h2]
      simp only [List.length_cons]
      omega
    | false =>
      have h1 : (x :: xs).filter p = xs.filter p := by
        simp [List.filter_cons, hx]
      have h2 : ((x :: xs).filter fun a => ! p a) = x :: (xs.filter fun a => ! p a) := by
        simp [List.filter_cons, hx]
      rw [h1, h2]
      simp only [List.length_cons]
      omega

theorem length_filter_mem_range (l : List Nat) (n : Nat) (hnd : l.Nodup)
    (hb : ∀ x ∈ l, x < n) :
    ((List.range n).filter fun x => decide (x ∈ l)).length = l.length := by
  apply List.Perm.length_eq
  apply List.perm_of_nodup_nodup_toFinset_eq
  · exact (List.nodup_range n).filter _
  · exact hnd
  · ext x
    simp only [List.mem_toFinset, List.mem_filter, List.mem_range, decide_eq_true_eq]
    exact ⟨fun h => h.2, fun h => ⟨hb x h, h⟩⟩

theorem length_filter_not_mem_range (l : List Nat) (n : Nat) (hnd : l.Nodup)
    (hb : ∀ x ∈ l, x < n) :
    ((List.range n).filter fun x => decide (x ∉ l)).length = n - l.length := by
  have h1 := filter_length_partition (List.range n) fun x => decide (x ∈ l)
  have h2 := length_filter_mem_range l n hnd hb
  have h3 : ((List.range n).filter fun x => decide (x ∉ l)) =
      ((List.range n).filter fun x => ! decide (x ∈ l)) := by
    apply List.filter_congr
    intro x hx
    simp [decide_not]
  rw [h3]
  rw [h2] at h1
  simp only [List.length_range] at h1
  omega

/-- **C5**: for every group (in `main.py` a group always has at least one
ground-truth box), the matched rows plus the false negatives added for the
group equal the group's ground-truth count (its `total_true` increment),
and the matched columns plus the false positives added equal the group's
prediction count (its `total_pred` increment).  The number of matched rows
and of matched columns both equal the recorded `true_positive` count
(`greedy_loop_disjoint`). -/
theorem processGroup_partition (tb pb : List Box) (t : ℚ) (hM : 0 < tb.length) :
    (processGroup tb pb t).total_true = tb.length ∧
    (processGroup tb pb t).total_pred = pb.length ∧
    (processGroup tb pb t).true_positive + (processGroup tb pb t).false_negative
      = tb.length ∧
    (processGroup tb pb t).true_positive + (processGroup tb pb t).false_positive
      = pb.length := by
  by_cases hN : pb.length = 0
  · have hcond : 0 < tb.length ∧ pb.length = 0 := ⟨hM, hN⟩
    simp [processGroup, hcond, hN]
  · have hN' : 0 < pb.length := Nat.pos_of_ne_zero hN
    have hcond : ¬(0 < tb.length ∧ pb.length = 0) := by tauto
    obtain ⟨st2, hrun, ⟨mat2, hinv2⟩, _⟩ :=
      greedyLoop_run hM hN' (iouMatrix tb pb) (iouMatrix_nonneg tb pb) t
        (min tb.length pb.length + 1) (iouMatrix tb pb) ⟨[], [], 0⟩
        (loopInv_init (iouMatrix_rect tb pb)) (by omega)
    simp only [processGroup, hcond, if_false, groupFuel, hrun, Option.getD_some]
    have hfn := length_filter_not_mem_range st2.usedRows tb.length
      hinv2.nodupR hinv2.boundR
    have hfp := length_filter_not_mem_range st2.usedCols pb.length
      hinv2.nodupC hinv2.boundC
    have htpM : st2.usedRows.length ≤ tb.length :=
      nodup_lt_length_le _ _ hinv2.nodupR hinv2.boundR
    have htpN : st2.usedCols.length ≤ pb.length :=
      nodup_lt_length_le _ _ hinv2.nodupC hinv2.boundC
    have hlenR := hinv2.lenR
    have hlenC := hinv2.lenC
    refine ⟨trivial, trivial, ?_, ?_⟩
    · simp only [hfn]
      omega
    · simp only [hfp]
      omega

/-- Witness for `processGroup_partition`: spec Scenario B's group (one
ground-truth box, one disjoint prediction, threshold one half). -/
theorem processGroup_partition_witness :
    (processGroup [⟨0, 0, 10, 10⟩] [⟨50, 50, 60, 60⟩] (1 / 2)).total_true = 1 ∧
    (processGroup [⟨0, 0, 10, 10⟩] [⟨50, 50, 60, 60⟩] (1 / 2)).total_pred = 1 ∧
    (processGroup [⟨0, 0, 10, 10⟩] [⟨50, 50, 60, 60⟩] (1 / 2)).true_positive +
      (processGroup [⟨0, 0, 10, 10⟩] [⟨50, 50, 60, 60⟩] (1 / 2)).false_negative = 1 ∧
    (processGroup [⟨0, 0, 10, 10⟩] [⟨50, 50, 60, 60⟩] (1 / 2)).true_positive +
      (processGroup [⟨0, 0, 10, 10⟩] [⟨50, 50, 60, 60⟩] (1 / 2)).false_positive = 1 :=
  processGroup_partition [⟨0, 0, 10, 10⟩] [⟨50, 50, 60, 60⟩] (1 / 2) (by decide)

/-- **C7**: for a group with `M > 0` ground-truth boxes and `N > 0`
predictions, threshold `t = 0` makes the loop record exactly `min M N`
true positives: the loop only stops when the remaining maximum is strictly
below `t`, and every valid IoU entry is `≥ 0`, so pairs are matched even
at IoU exactly `0` (completely disjoint boxes). -/
theorem processGroup_threshold_zero (tb pb : List Box) (hM : 0 < tb.length)
    (hN : 0 < pb.length) :
    (processGroup tb pb 0).true_positive = min tb.length pb.length := by
  have hcond : ¬(0 < tb.length ∧ pb.length = 0) := by omega
  obtain ⟨st2, hrun, ⟨mat2, hinv2⟩, hfinal⟩ :=
    greedyLoop_run hM hN (iouMatrix tb pb) (iouMatrix_nonneg tb pb) 0
      (min tb.length pb.length + 1) (iouMatrix tb pb) ⟨[], [], 0⟩
      (loopInv_init (iouMatrix_rect tb pb)) (by omega)
  simp only [processGroup, hcond, if_false, groupFuel, hrun, Option.getD_some]
  have hcover : ∀ i < tb.length, ∀ j < pb.length,
      i ∈ st2.usedRows ∨ j ∈ st2.usedCols := by
    intro i hi j hj
    by_contra hcon
    push_neg at hcon
    have hlt := hfinal i hi j hj hcon.1 hcon.2
    have hge := iouMatrix_nonneg tb pb i hi j hj
    have hcontra : (0 : Val) < ((0 : ℚ) : Val) := lt_of_le_of_lt hge hlt
    simp at hcontra
  have htpM : st2.usedRows.length ≤ tb.length :=
    nodup_lt_length_le _ _ hinv2.nodupR hinv2.boundR
  have htpN : st2.usedCols.length ≤ pb.length :=
    nodup_lt_length_le _ _ hinv2.nodupC hinv2.boundC
  have hlenR := hinv2.lenR
  have hlenC := hinv2.lenC
  by_cases hall : ∃ i, i < tb.length ∧ i ∉ st2.usedRows
  · obtain ⟨i0, hi0, hni⟩ := hall
    have hallc : ∀ j < pb.length, j ∈ st2.usedCols := fun j hj =>
      (hcover i0 hi0 j hj).resolve_left hni
    have hge : pb.length ≤ st2.usedCols.length := by
      have hsub : List.range pb.length ⊆ st2.usedCols := fun x hx =>
        hallc x (List.mem_range.mp hx)
      have := ((List.nodup_range pb.length).subperm hsub).length_le
      simpa using this
    omega
  · push_neg at hall
    have hge : tb.length ≤ st2.usedRows.length := by
      have hsub : List.range tb.length ⊆ st2.usedRows := fun x hx =>
        hall x (List.mem_range.mp hx)
      have := ((List.nodup_range tb.length).subperm hsub).length_le
      simpa using this
    omega

/-- Witness for `processGroup_threshold_zero`: one ground-truth box and
one completely disjoint prediction still produce one match at `t = 0`. -/
theorem processGroup_threshold_zero_witness :
    (processGroup [⟨0, 0, 10, 10⟩] [⟨50, 50, 60, 60⟩] 0).true_positive = min 1 1 :=
  processGroup_threshold_zero [⟨0, 0, 10, 10⟩] [⟨50, 50, 60, 60⟩] (by decide) (by decide)

theorem foldl_congr_on {α β : Type} (l : List α) (f g : β → α → β) (b : β)
    (h : ∀ b' a, a ∈ l → f b' a = g b' a) : l.foldl f b = l.foldl g b := by
  induction l generalizing b with
  | nil => rfl
  | cons x xs ih =>
    simp only [List.foldl_cons]
    rw [h b x (by simp)]
    exact ih _ fun b' a ha => h b' a (by simp [ha])

theorem groupOf_filter_key (preds gt : List Det) (k : String × String)
    (hk : k ∈ groupKeys gt) :
    groupOf (preds.filter fun d => decide (detKey d ∈ groupKeys gt)) k =
      groupOf preds k := by
  unfold groupOf
  rw [List.filter_filter]
  apply List.filter_congr
  intro d hd
  by_cases hdk : detKey d = k
  · simp [hdk, hk]
  · simp [hdk]

theorem evalDetections_filter_preds (gt preds : List Det) (t : ℚ) :
    evalDetections gt (preds.filter fun d => decide (detKey d ∈ groupKeys gt)) t =
      evalDetections gt preds t := by
  unfold evalDetections
  apply foldl_congr_on
  intro acc k hkmem
  rw [groupOf_filter_key preds gt k hkmem]

theorem processGroup_no_preds (tb : List Box) (t : ℚ) (hM : 0 < tb.length) :
    processGroup tb [] t = ⟨tb.length, 0, 0, tb.length, 0⟩ := by
  have hcond : 0 < tb.length ∧ ([] : List Box).length = 0 := ⟨hM, rfl⟩
  simp [processGroup, hcond]

/-- **C1 counterexample**: one ground-truth box for `("img1", "dog")` and
one prediction for `("img1", "cat")` — a group with a prediction but no
ground truth.  The claim requires all of that group's predictions to be
counted as false positives (`false_positive = 1`) and its `total_pred` to
be accumulated (`total_pred = 1`) for label `"cat"`; the program's driver
iterates only over ground-truth groups (line 61), never visits the
`("img1", "cat")` group, and leaves both counters at `0`, while the
`"dog"` group is processed normally (all false negatives). -/
theorem prediction_only_group_dropped :
    ((evalDetections [⟨"img1", ⟨0, 0, 10, 10⟩, "dog"⟩]
        [⟨"img1", ⟨50, 50, 60, 60⟩, "cat"⟩] (1 / 2)) "cat").false_positive = 0 ∧
    ((evalDetections [⟨"img1", ⟨0, 0, 10, 10⟩, "dog"⟩]
        [⟨"img1", ⟨50, 50, 60, 60⟩, "cat"⟩] (1 / 2)) "cat").total_pred = 0 ∧
    (evalDetections [⟨"img1", ⟨0, 0, 10, 10⟩, "dog"⟩]
        [⟨"img1", ⟨50, 50, 60, 60⟩, "cat"⟩] (1 / 2)) "dog" = ⟨1, 0, 0, 1, 0⟩ := by
  decide

/-- **C1 amended**: groups are formed from the ground truth only, so an
`(image, label)` group with predictions but no ground-truth boxes never
arises in the loop — such predictions are ignored entirely (dropping them
beforehand does not change the output; neither `false_positive` nor
`total_pred` is accumulated for them).  Symmetrically (this half of the
original claim is true of the code), a group with ground truth but no
predictions contributes all its ground-truth boxes as false negatives,
with no matrix construction or matching. -/
theorem groups_come_from_ground_truth_only :
    (∀ (gt preds : List Det) (t : ℚ),
      evalDetections gt (preds.filter fun d => decide (detKey d ∈ groupKeys gt)) t =
        evalDetections gt preds t) ∧
    ∀ (tb : List Box) (t : ℚ), 0 < tb.length →
      processGroup tb [] t = ⟨tb.length, 0, 0, tb.length, 0⟩ :=
  ⟨evalDetections_filter_preds, fun tb t hM => processGroup_no_preds tb t hM⟩

/-- Witness for `groups_come_from_ground_truth_only` at concrete inputs. -/
theorem groups_come_from_ground_truth_only_witness :
    (evalDetections [⟨"img1", ⟨0, 0, 10, 10⟩, "dog"⟩]
      (([⟨"img1", ⟨50, 50, 60, 60⟩, "cat"⟩] : List Det).filter
        fun d => decide (detKey d ∈ groupKeys [⟨"img1", ⟨0, 0, 10, 10⟩, "dog"⟩]))
      (1 / 2) =
      evalDetections [⟨"img1", ⟨0, 0, 10, 10⟩, "dog"⟩]
        [⟨"img1", ⟨50, 50, 60, 60⟩, "cat"⟩] (1 / 2)) ∧
    processGroup [⟨0, 0, 10, 10⟩] [] (1 / 2) = ⟨1, 0, 0, 1, 0⟩ :=
  ⟨groups_come_from_ground_truth_only.1 [⟨"img1", ⟨0, 0, 10, 10⟩, "dog"⟩]
      [⟨"img1", ⟨50, 50, 60, 60⟩, "cat"⟩] (1 / 2),
    groups_come_from_ground_truth_only.2 [⟨0, 0, 10, 10⟩] (1 / 2) (by decide)⟩
